import Mathlib

/-!
Verification development for the marksage markdown engine
(src/src/markdown_file.rs, src/src/archive.rs, src/src/format_files.rs).

The mdast node variants used by the program are embedded as a mutual
inductive pair `Node` / `NodeList` (the repository's tree type is
`markdown::mdast::Node`, whose containers hold `Vec<Node>`), so that all
recursive functions below are structural and compute by `rfl`/`decide`.
Only the fields the embedded functions read are kept (`position` and
`spread` fields are never consulted by the code under verification).
-/

namespace Marksage

/-- Alignment of a table column (mdast `AlignKind`). -/
inductive AlignKind where
  | left
  | right
  | center
  | none
deriving DecidableEq

mutual
/-- Embedded mdast node. `hardBreak` embeds Rust's `Node::Break`
(`break` is a Lean keyword). Variants carry exactly the payloads the
Rust code reads: e.g. `list` keeps `ordered` and `start`
(the serializer branches on `start`), `listItem` keeps the tri-state
`checked : Option Bool`. -/
inductive Node where
  | root (children : NodeList)
  | heading (depth : Nat) (children : NodeList)
  | text (value : String)
  | paragraph (children : NodeList)
  | list (ordered : Bool) (start : Option Nat) (children : NodeList)
  | listItem (checked : Option Bool) (children : NodeList)
  | code (lang : Option String) (value : String)
  | inlineCode (value : String)
  | emphasis (children : NodeList)
  | strong (children : NodeList)
  | delete (children : NodeList)
  | hardBreak
  | link (url : String) (children : NodeList)
  | image (alt : String) (url : String)
  | blockQuote (children : NodeList)
  | thematicBreak
  | html (value : String)
  | imageReference (alt : String) (identifier : String)
  | definition (identifier : String) (url : String)
  | footnoteReference (identifier : String)
  | footnoteDefinition (identifier : String) (children : NodeList)
  | table (align : List AlignKind) (children : NodeList)
  | tableRow (children : NodeList)
  | tableCell (children : NodeList)
  | math (value : String)
  | inlineMath (value : String)
  | yaml (value : String)

/-- Children vector of a node (`Vec<Node>` in the source). -/
inductive NodeList where
  | nil
  | cons (head : Node) (tail : NodeList)
end

/-- Length of a children vector. -/
def NodeList.length : NodeList → Nat
  | .nil => 0
  | .cons _ ns => ns.length + 1

/-- First `k` children (`Iterator::take` in the source). -/
def NodeList.take : Nat → NodeList → NodeList
  | 0, _ => .nil
  | _, .nil => .nil
  | k + 1, .cons n ns => .cons n (NodeList.take k ns)

/-- Vec::insert: insert `x` at index `i`, shifting later elements right.
The source only ever inserts at an index that is at most the length; past
the end this embedding appends (Rust would panic there, a case the
program never reaches). -/
def NodeList.insertAt : NodeList → Nat → Node → NodeList
  | ns, 0, x => .cons x ns
  | .nil, _ + 1, x => .cons x .nil
  | .cons n ns, i + 1, x => .cons n (ns.insertAt i x)

/-- Index of the first child satisfying `p`
(`Iterator::enumerate().find(...)` in `archive_markdown`). -/
def NodeList.findIdxP (p : Node → Bool) : NodeList → Option Nat
  | .nil => none
  | .cons n ns => if p n then some 0 else (NodeList.findIdxP p ns).map (· + 1)

/-- Index of the last `List` child
(`iter().enumerate().rev().find(matches List)` in `archive_markdown`). -/
def NodeList.lastListIdx : NodeList → Option Nat
  | .nil => none
  | .cons n ns =>
    match ns.lastListIdx with
    | some i => some (i + 1)
    | none => match n with
      | .list _ _ _ => some 0
      | _ => none

/-- Root node of a parsed document (mdast `Root`). -/
structure MRoot where
  children : NodeList

/-- Parsed document as consumed by `archive.rs` / `format_files.rs`:
an optional raw frontmatter block plus the body tree. (The
`markdown_file.rs` in this snapshot stores only `root`; the archive and
format modules address the same children list through `body` and carry
`frontmatter` separately. The claims below depend only on the children
list.) -/
structure MdastDocument where
  frontmatter : Option String
  body : MRoot

/- ------------------------------------------------------------------ -/
/- Archival classifier and rewriter (src/src/archive.rs)              -/
/- ------------------------------------------------------------------ -/

mutual
/-- Embeds `should_archive` (archive.rs lines 262-271): a boolean
classifier. An unchecked list item is never archivable; a checked or
checkbox-less item is archivable iff all its children are; a list is
archivable iff all its children are; every other node is archivable. -/
def shouldArchive : Node → Bool
  | .listItem checked cs =>
    match checked with
    | some false => false
    | _ => allShouldArchive cs
  | .list _ _ cs => allShouldArchive cs
  | _ => true

/-- Embeds the `iter().all(should_archive)` folds inside `should_archive`. -/
def allShouldArchive : NodeList → Bool
  | .nil => true
  | .cons n ns => shouldArchive n && allShouldArchive ns
end

/-- Embeds the heading test in `archive_markdown`: a depth-2 heading
whose first child is the text `Archived`. -/
def isArchivedHeading : Node → Bool
  | .heading depth cs =>
    depth == 2 &&
      (match cs with
       | .cons (.text v) _ => v == "Archived"
       | _ => false)
  | _ => false

/-- The synthesized `## Archived` heading node from `archive_markdown`. -/
def archivedHeadingNode : Node :=
  .heading 2 (.cons (.text "Archived") .nil)

/-- Embeds the `filter_map` in `archive_markdown` (lines 282-291): keep
exactly the `ListItem` children classified `should_archive`; drop
everything else. -/
def filterArchivable : NodeList → NodeList
  | .nil => .nil
  | .cons n ns =>
    match n with
    | .listItem checked cs =>
      if shouldArchive (.listItem checked cs)
      then .cons (.listItem checked cs) (filterArchivable ns)
      else filterArchivable ns
    | _ => filterArchivable ns

/-- Embeds the `for (i, node) in ...take(archived_section)` loop of
`archive_markdown` (lines 273-297): for every `List` among the scanned
prefix of the original children, build the filtered list and, when it is
non-empty, insert it into the accumulator at the fixed position
`archived_section + 1`. -/
def processLists (scan : NodeList) (pos : Nat) (acc : NodeList) : NodeList :=
  match scan with
  | .nil => acc
  | .cons n rest =>
    let acc' :=
      match n with
      | .list ordered start cs =>
        match filterArchivable cs with
        | .nil => acc
        | arch => acc.insertAt pos (.list ordered start arch)
      | _ => acc
    processLists rest pos acc'

/-- Embeds `archive_markdown` (archive.rs lines 6-306): find or create
the Archived section, scan the top-level lists before it, and insert the
filtered archivable items after the heading. The final expression is
`Some(markdown.replace_with(...))`, unconditionally `some`; the absent
helper `replace_with` is the evident document constructor at its call
site (frontmatter plus new root). -/
def archiveMarkdown (doc : MdastDocument) : Option MdastDocument :=
  let children := doc.body.children
  let found := children.findIdxP isArchivedHeading
  let archIdx :=
    match found with
    | some i => i
    | none =>
      match children.lastListIdx with
      | some i => i + 1
      | none => children.length
  let base :=
    match found with
    | some _ => children
    | none => children.insertAt archIdx archivedHeadingNode
  some { frontmatter := doc.frontmatter,
         body := ⟨processLists (NodeList.take archIdx children) (archIdx + 1) base⟩ }

/-- True when some top-level `List` child contains a `ListItem` that the
archival filter would keep; this is exactly the condition under which
the loop in `archive_markdown` inserts a list after the Archived
heading. -/
def anyQualifying : NodeList → Bool
  | .nil => false
  | .cons n ns =>
    (match n with
     | .list _ _ cs =>
       match filterArchivable cs with
       | .nil => false
       | _ => true
     | _ => false)
    || anyQualifying ns

/- ------------------------------------------------------------------ -/
/- Text normalizer (src/src/format_files.rs)                          -/
/- ------------------------------------------------------------------ -/

/-- Embeds `Regex::new("(--)").replace_all(text, "—")` from
`text_replace`: replace each leftmost non-overlapping `--` with an em
dash. -/
def trChars : List Char → List Char
  | [] => []
  | [c] => [c]
  | c :: d :: rest =>
    if c = '-' && d = '-' then '—' :: trChars rest
    else c :: trChars (d :: rest)

/-- Embeds `text_replace` (format_files.rs lines 17-22). -/
def textReplace (s : String) : String :=
  ⟨trChars s.data⟩

mutual
/-- Embeds `format_node` (format_files.rs lines 24-47): rewrite every
`Text` value with `text_replace`; recurse through the children of every
other node, leaving non-text payloads untouched. The `changed` cell
threaded by the Rust code is never written nor read, so it has no
observable effect and is not modelled. -/
def formatNode : Node → Node
  | .text v => .text (textReplace v)
  | .root cs => .root (formatList cs)
  | .heading d cs => .heading d (formatList cs)
  | .paragraph cs => .paragraph (formatList cs)
  | .list o s cs => .list o s (formatList cs)
  | .listItem c cs => .listItem c (formatList cs)
  | .emphasis cs => .emphasis (formatList cs)
  | .strong cs => .strong (formatList cs)
  | .delete cs => .delete (formatList cs)
  | .link u cs => .link u (formatList cs)
  | .blockQuote cs => .blockQuote (formatList cs)
  | .footnoteDefinition i cs => .footnoteDefinition i (formatList cs)
  | .table a cs => .table a (formatList cs)
  | .tableRow cs => .tableRow (formatList cs)
  | .tableCell cs => .tableCell (formatList cs)
  | n => n

/-- Children traversal of `format_node`. -/
def formatList : NodeList → NodeList
  | .nil => .nil
  | .cons n ns => .cons (formatNode n) (formatList ns)
end

/-- Embeds `format_document` (format_files.rs lines 49-60): rebuild the
body through `format_node` and return it wrapped in `Some` —
unconditionally, since the `changed` flag is never set. -/
def formatDocument (doc : MdastDocument) : Option MdastDocument :=
  some { frontmatter := doc.frontmatter,
         body := ⟨formatList doc.body.children⟩ }

/- ------------------------------------------------------------------ -/
/- Serializer (src/src/markdown_file.rs)                              -/
/- ------------------------------------------------------------------ -/

/-- Serialization context threaded through `mdast_string`: the pending
ordered-list ordinal and the list nesting depth. -/
structure Context where
  listIndex : Option Nat
  listIndent : Option Nat

/-- The `Context::default()` value. -/
def defaultContext : Context := ⟨none, none⟩

/-- Embeds `count_longest_sequential_chars` (markdown_file.rs lines
78-92) exactly as written: the running `count` is folded into `longest`
only when a different character is seen, so a run that reaches the end
of the string is never flushed. -/
def countLongestAux (c : Char) (longest count : Nat) : List Char → Nat
  | [] => longest
  | ch :: rest =>
    if ch = c then countLongestAux c longest (count + 1) rest
    else countLongestAux c (max longest count) 0 rest

/-- Entry point of `count_longest_sequential_chars`. -/
def count_longest_sequential_chars (s : String) (c : Char) : Nat :=
  countLongestAux c 0 0 s.data

/-- What the spec says the fence computation should measure: the length
of the longest run of consecutive occurrences of `c` anywhere in the
string, including a run that ends the string. -/
def longestRunSpec (c : Char) : List Char → Nat → Nat
  | [], count => count
  | ch :: rest, count =>
    if ch = c then longestRunSpec c rest (count + 1)
    else max count (longestRunSpec c rest 0)

/-- Modelled from the spec: cell widths use the external unicode-width
crate ("Unicode display width, not byte length", spec section 4.1),
which is not part of this repository. Control characters count 0,
characters of the East Asian wide and fullwidth blocks count 2, all
others 1; this agrees with the crate on all ASCII text, which is all the
theorems below evaluate. -/
def charWidth (c : Char) : Nat :=
  if c.val < 32 || c.val == 127 then 0
  else if (0x1100 ≤ c.val && c.val ≤ 0x115F) || (0x2E80 ≤ c.val && c.val ≤ 0xA4CF)
      || (0xAC00 ≤ c.val && c.val ≤ 0xD7A3) || (0xF900 ≤ c.val && c.val ≤ 0xFAFF)
      || (0xFE30 ≤ c.val && c.val ≤ 0xFE4F) || (0xFF00 ≤ c.val && c.val ≤ 0xFF60)
      || (0xFFE0 ≤ c.val && c.val ≤ 0xFFE6) || (0x20000 ≤ c.val && c.val ≤ 0x3FFFD)
  then 2 else 1

/-- Display width of a string (UnicodeWidthStr::width). -/
def unicodeWidth (s : String) : Nat := (s.data.map charWidth).sum

/-- A run of `n` copies of one character (str::repeat). -/
def repeatChar (c : Char) (n : Nat) : String := ⟨List.replicate n c⟩

/-- A run of `n` spaces. -/
def spaces (n : Nat) : String := repeatChar ' ' n

/-- Embeds Rust's `str::lines()` for strings whose line terminator is
`\n` (the serializer never emits `\r`): every `\n` ends a line, and a
final fragment without a terminating `\n` still forms a line. -/
def rustLines : List Char → List (List Char)
  | [] => []
  | c :: cs =>
    if c = '\n' then [] :: rustLines cs
    else
      match rustLines cs with
      | [] => [[c]]
      | l :: ls => (c :: l) :: ls

/-- Join a list of strings with a separator (Vec::join). -/
def joinSep (sep : String) : List String → String
  | [] => ""
  | [s] => s
  | s :: rest => s ++ sep ++ joinSep sep rest

/-- Minimum rendered width of a column's alignment marker (the `longest`
vector's initial value in the table branch of `mdast_string`). -/
def alignMin : AlignKind → Nat
  | .left => 2
  | .right => 2
  | .center => 3
  | .none => 1

/-- Initial per-column widths, one per alignment entry. -/
def minWidths (align : List AlignKind) : List Nat := align.map alignMin

/-- Fold one skeleton row into the per-column maxima
(`longest[column] = longest[column].max(cell_width)`). -/
def updateRow (ws : List Nat) (row : List (Option (String × Nat))) : List Nat :=
  List.zipWith
    (fun w slot =>
      match slot with
      | some (_, cw) => max w cw
      | none => w)
    ws row

/-- Final per-column widths of a table: the alignment minima joined with
every present cell's rendered width. -/
def tableWidths (align : List AlignKind) (skel : List (List (Option (String × Nat)))) :
    List Nat :=
  skel.foldl updateRow (minWidths align)

/-- One column of the delimiter row. The Nat subtractions mirror the
`usize` subtractions of the source; `tableWidths_ge_min` below shows the
minuend is always at least the subtrahend. -/
def delimCell (w : Nat) : AlignKind → String
  | .left => ":" ++ repeatChar '-' (w - 1)
  | .center => ":" ++ repeatChar '-' (w - 2) ++ ":"
  | .right => repeatChar '-' (w - 1) ++ ":"
  | .none => repeatChar '-' w

/-- The table delimiter row. -/
def delimRow (ws : List Nat) (align : List AlignKind) : String :=
  "| " ++ joinSep " | " (List.zipWith delimCell ws align) ++ " |\n"

/-- Emission of a single skeleton slot: a present cell is padded to the
column width according to the column alignment; an absent slot emits
nothing. -/
def padSlot (a : AlignKind) (w : Nat) : Option (String × Nat) → String
  | none => ""
  | some (s, cw) =>
    match a with
    | .left => "| " ++ s ++ spaces (w - cw) ++ " "
    | .none => "| " ++ s ++ spaces (w - cw) ++ " "
    | .right => "| " ++ spaces (w - cw) ++ s ++ " "
    | .center => "| " ++ spaces ((w - cw) / 2) ++ s ++ spaces ((w - cw + 1) / 2) ++ " "

/-- Cells of one emitted table row, in column order. -/
def rowCells : List AlignKind → List Nat → List (Option (String × Nat)) → String
  | a :: arest, w :: wrest, s :: srest => padSlot a w s ++ rowCells arest wrest srest
  | _, _, _ => ""

/-- One emitted table row, closed by its pipe and newline (the source
appends `|\n` when the flattened index reaches the last column of a
row). -/
def rowString (align : List AlignKind) (ws : List Nat) (row : List (Option (String × Nat))) :
    String :=
  rowCells align ws row ++ "|\n"

/-- True when the node is a `ListItem` (the pattern check inside the
ordered-list numbering closure of `mdast_string`). -/
def isListItem : Node → Bool
  | .listItem _ _ => true
  | _ => false

mutual
/-- Embeds `mdast_string` (markdown_file.rs lines 129-329). `none`
embeds the `panic!("Unexpected node type")` fallback arm, reached by a
`TableRow` or `TableCell` outside the table branch; every listed node
variant otherwise produces a string. -/
def mdastString : Node → Context → Option String
  | .root cs, ctx => renderList cs ctx
  | .heading depth cs, ctx =>
    (renderList cs ctx).map (fun s => repeatChar '#' depth ++ " " ++ s ++ "\n")
  | .text v, _ => some v
  | .paragraph cs, ctx => (renderList cs ctx).map (fun s => s ++ "\n")
  | .list _ st cs, ctx =>
    let indent : Option Nat :=
      some (match ctx.listIndent with
            | none => 0
            | some i => i + 1)
    match st with
    | none => renderList cs ⟨none, indent⟩
    | some start => renderOrdered cs start indent
  | .listItem checked cs, ctx =>
    (renderList cs ⟨none, ctx.listIndent⟩).map (fun s =>
      spaces (ctx.listIndent.getD 0 * 4) ++
      (match ctx.listIndex with
       | some i => toString i ++ "."
       | none => "-") ++ " " ++
      (match checked with
       | some true => "[x] "
       | some false => "[ ] "
       | none => "") ++ s)
  | .code lang v, _ => some ("```" ++ lang.getD "" ++ "\n" ++ v ++ "\n```\n")
  | .inlineCode v, _ =>
    let fence := repeatChar '`' (count_longest_sequential_chars v '`' + 1)
    some (fence ++ v ++ fence)
  | .emphasis cs, ctx => (renderList cs ctx).map (fun s => "*" ++ s ++ "*")
  | .strong cs, ctx => (renderList cs ctx).map (fun s => "**" ++ s ++ "**")
  | .delete cs, ctx => (renderList cs ctx).map (fun s => "~~" ++ s ++ "~~")
  | .hardBreak, _ => some "\n"
  | .link url cs, ctx =>
    (renderList cs ctx).map (fun s =>
      if url = s then "<" ++ s ++ ">" else "[" ++ s ++ "](" ++ url ++ ")")
  | .image alt url, _ => some ("![" ++ alt ++ "](" ++ url ++ ")")
  | .blockQuote cs, ctx =>
    (renderList cs ctx).map (fun s =>
      String.join ((rustLines s.data).map (fun l => "> " ++ String.mk l ++ "\n")))
  | .thematicBreak, _ => some "---\n"
  | .html v, _ => some v
  | .imageReference alt ident, _ => some ("![" ++ alt ++ "][" ++ ident ++ "]")
  | .definition ident url, _ => some ("[" ++ ident ++ "]: " ++ url)
  | .footnoteReference ident, _ => some ("[^" ++ ident ++ "]")
  | .footnoteDefinition ident cs, ctx =>
    (renderFootnote cs true ctx).map (fun s => "[^" ++ ident ++ "]: " ++ s)
  | .table align rows, ctx =>
    (rowsSkeleton rows align.length ctx).map (fun skel =>
      let ws := tableWidths align skel
      let delim := delimRow ws align
      if align.length = 0 then
        if rows.length = 1 then delim else ""
      else
        match skel with
        | [] => if rows.length = 1 then delim else ""
        | hdr :: rest =>
          rowString align ws hdr ++
          (if rest.isEmpty then "" else
            delim ++ String.join (rest.map (rowString align ws))) ++
          (if rows.length = 1 then delim else ""))
  | .tableRow _, _ => none
  | .tableCell _, _ => none
  | .math v, _ => some ("$$\n" ++ v ++ "\n$$")
  | .inlineMath v, _ => some ("$" ++ v ++ "$")
  | .yaml v, _ => some ("---\n" ++ v ++ "\n---\n")

/-- Embeds `recursive_mdast_string(ctx, nodes, "")`: every call site in
the source passes the empty separator, so this is string concatenation
of the children's renderings. -/
def renderList : NodeList → Context → Option String
  | .nil, _ => some ""
  | .cons n ns, ctx =>
    match mdastString n ctx, renderList ns ctx with
    | some s, some t => some (s ++ t)
    | _, _ => none

/-- Embeds the ordered-list branch of `mdast_string`: a running counter
starts at `start` and is consumed only by `ListItem` children; other
children render with no ordinal. -/
def renderOrdered : NodeList → Nat → Option Nat → Option String
  | .nil, _, _ => some ""
  | .cons n ns, i, indent =>
    if isListItem n then
      match mdastString n ⟨some i, indent⟩, renderOrdered ns (i + 1) indent with
      | some s, some t => some (s ++ t)
      | _, _ => none
    else
      match mdastString n ⟨none, indent⟩, renderOrdered ns i indent with
      | some s, some t => some (s ++ t)
      | _, _ => none

/-- Embeds the `FootnoteDefinition` body: each child block is rendered,
its lines re-emitted with a four-space continuation indent except for
the first block, and the per-block strings joined with a newline. -/
def renderFootnote : NodeList → Bool → Context → Option String
  | .nil, _, _ => some ""
  | .cons n .nil, first, ctx =>
    (mdastString n ctx).map (fun s =>
      String.join ((rustLines s.data).map (fun l =>
        (if first then "" else "    ") ++ String.mk l ++ "\n")))
  | .cons n ns, first, ctx =>
    match mdastString n ctx, renderFootnote ns false ctx with
    | some s, some t =>
      some (String.join ((rustLines s.data).map (fun l =>
        (if first then "" else "    ") ++ String.mk l ++ "\n")) ++ "\n" ++ t)
    | _, _ => none

/-- Embeds the first table pass over `t.children`: each child occupies
one row of `t.align.len()` skeleton slots; a `TableRow` fills the slots
of its first `t.align.len()` children that are `TableCell`s with their
rendered string and width, and every other slot stays empty. -/
def rowsSkeleton : NodeList → Nat → Context → Option (List (List (Option (String × Nat))))
  | .nil, _, _ => some []
  | .cons r rs, cols, ctx =>
    match r with
    | .tableRow cells =>
      match cellsSlots cells cols ctx, rowsSkeleton rs cols ctx with
      | some row, some rest => some (row :: rest)
      | _, _ => none
    | _ => (rowsSkeleton rs cols ctx).map (List.replicate cols (none : Option (String × Nat)) :: ·)

/-- Slots of one table row: the first `cols` children are examined in
order (`enumerate().take(align.len())`), a `TableCell` renders into its
slot, anything else leaves its slot empty; remaining columns stay
empty. -/
def cellsSlots : NodeList → Nat → Context → Option (List (Option (String × Nat)))
  | _, 0, _ => some []
  | .nil, cols + 1, _ => some (List.replicate (cols + 1) (none : Option (String × Nat)))
  | .cons c cs, cols + 1, ctx =>
    match c with
    | .tableCell inner =>
      match renderList inner ctx, cellsSlots cs cols ctx with
      | some s, some rest => some (some (s, unicodeWidth s) :: rest)
      | _, _ => none
    | _ => (cellsSlots cs cols ctx).map ((none : Option (String × Nat)) :: ·)
end

/-- Renderings of the root's children under the default context (the
first `map` of `MdastDocument::render`). -/
def renderChildren : NodeList → Option (List String)
  | .nil => some []
  | .cons n ns =>
    match mdastString n defaultContext, renderChildren ns with
    | some s, some t => some (s :: t)
    | _, _ => none

/-- True when the string ends in a newline. -/
def endsWithNewline (s : String) : Bool := s.data.getLast? == some '\n'

/-- Embeds `MdastDocument::render` (markdown_file.rs lines 66-75): each
root child renders, is given a trailing newline if it lacks one, and the
results are joined with blank-line separators. -/
def renderDoc (ns : NodeList) : Option String :=
  (renderChildren ns).map (fun ss =>
    joinSep "\n" (ss.map (fun s => s ++ (if endsWithNewline s then "" else "\n"))))

/- ------------------------------------------------------------------ -/
/- Classifier analysis                                                -/
/- ------------------------------------------------------------------ -/

mutual
/-- True when the node is, or reaches through nested `List`/`ListItem`
nodes only, a `ListItem` with `checked = Some(false)`. This is the exact
recursion structure of `should_archive`, which does not look inside any
other container (for example a block quote). -/
def anyUnchecked : Node → Bool
  | .listItem checked cs => checked == some false || anyUncheckedL cs
  | .list _ _ cs => anyUncheckedL cs
  | _ => false

/-- List version of `anyUnchecked`. -/
def anyUncheckedL : NodeList → Bool
  | .nil => false
  | .cons n ns => anyUnchecked n || anyUncheckedL ns
end

mutual
/-- True when any descendant `ListItem` anywhere in the subtree — through
every container variant, not just list nesting — carries a checkbox
(`checked` is `Some`). -/
def anyTaskNode : Node → Bool
  | .root cs => anyTaskL cs
  | .heading _ cs => anyTaskL cs
  | .paragraph cs => anyTaskL cs
  | .list _ _ cs => anyTaskL cs
  | .listItem checked cs => checked.isSome || anyTaskL cs
  | .emphasis cs => anyTaskL cs
  | .strong cs => anyTaskL cs
  | .delete cs => anyTaskL cs
  | .link _ cs => anyTaskL cs
  | .blockQuote cs => anyTaskL cs
  | .footnoteDefinition _ cs => anyTaskL cs
  | .table _ cs => anyTaskL cs
  | .tableRow cs => anyTaskL cs
  | .tableCell cs => anyTaskL cs
  | _ => false

/-- List version of `anyTaskNode`. -/
def anyTaskL : NodeList → Bool
  | .nil => false
  | .cons n ns => anyTaskNode n || anyTaskL ns
end

mutual
/-- Characterization of the boolean classifier: `should_archive` holds
exactly when no unchecked list item is reachable through `List` and
`ListItem` nesting. -/
theorem shouldArchive_eq_not_anyUnchecked :
    ∀ n : Node, shouldArchive n = !anyUnchecked n
  | .root cs => rfl
  | .heading _ _ => rfl
  | .text _ => rfl
  | .paragraph _ => rfl
  | .list _ _ cs => by
    simp only [shouldArchive, anyUnchecked, allShouldArchive_eq_not_anyUncheckedL cs]
  | .listItem checked cs => by
    cases checked with
    | none =>
      simp only [shouldArchive, anyUnchecked, allShouldArchive_eq_not_anyUncheckedL cs]
      rfl
    | some b =>
      cases b <;>
        simp only [shouldArchive, anyUnchecked, allShouldArchive_eq_not_anyUncheckedL cs] <;>
        rfl
  | .code _ _ => rfl
  | .inlineCode _ => rfl
  | .emphasis _ => rfl
  | .strong _ => rfl
  | .delete _ => rfl
  | .hardBreak => rfl
  | .link _ _ => rfl
  | .image _ _ => rfl
  | .blockQuote _ => rfl
  | .thematicBreak => rfl
  | .html _ => rfl
  | .imageReference _ _ => rfl
  | .definition _ _ => rfl
  | .footnoteReference _ => rfl
  | .footnoteDefinition _ _ => rfl
  | .table _ _ => rfl
  | .tableRow _ => rfl
  | .tableCell _ => rfl
  | .math _ => rfl
  | .inlineMath _ => rfl
  | .yaml _ => rfl

/-- List version of the classifier characterization. -/
theorem allShouldArchive_eq_not_anyUncheckedL :
    ∀ ns : NodeList, allShouldArchive ns = !anyUncheckedL ns
  | .nil => rfl
  | .cons n ns => by
    simp only [allShouldArchive, anyUncheckedL, shouldArchive_eq_not_anyUnchecked n,
      allShouldArchive_eq_not_anyUncheckedL ns, Bool.not_or]
end

mutual
/-- An unchecked item reachable through list nesting is in particular a
task item somewhere in the subtree. -/
theorem anyUnchecked_le_anyTaskNode :
    ∀ n : Node, anyUnchecked n = true → anyTaskNode n = true
  | .list _ _ cs => by
    simp only [anyUnchecked, anyTaskNode]
    exact anyUncheckedL_le_anyTaskL cs
  | .listItem checked cs => by
    simp only [anyUnchecked, anyTaskNode, Bool.or_eq_true]
    rintro (h | h)
    · left
      cases checked <;> simp_all
    · exact Or.inr (anyUncheckedL_le_anyTaskL cs h)
  | .root _ => by simp [anyUnchecked]
  | .heading _ _ => by simp [anyUnchecked]
  | .text _ => by simp [anyUnchecked]
  | .paragraph _ => by simp [anyUnchecked]
  | .code _ _ => by simp [anyUnchecked]
  | .inlineCode _ => by simp [anyUnchecked]
  | .emphasis _ => by simp [anyUnchecked]
  | .strong _ => by simp [anyUnchecked]
  | .delete _ => by simp [anyUnchecked]
  | .hardBreak => by simp [anyUnchecked]
  | .link _ _ => by simp [anyUnchecked]
  | .image _ _ => by simp [anyUnchecked]
  | .blockQuote _ => by simp [anyUnchecked]
  | .thematicBreak => by simp [anyUnchecked]
  | .html _ => by simp [anyUnchecked]
  | .imageReference _ _ => by simp [anyUnchecked]
  | .definition _ _ => by simp [anyUnchecked]
  | .footnoteReference _ => by simp [anyUnchecked]
  | .footnoteDefinition _ _ => by simp [anyUnchecked]
  | .table _ _ => by simp [anyUnchecked]
  | .tableRow _ => by simp [anyUnchecked]
  | .tableCell _ => by simp [anyUnchecked]
  | .math _ => by simp [anyUnchecked]
  | .inlineMath _ => by simp [anyUnchecked]
  | .yaml _ => by simp [anyUnchecked]

/-- List version of `anyUnchecked_le_anyTaskNode`. -/
theorem anyUncheckedL_le_anyTaskL :
    ∀ ns : NodeList, anyUncheckedL ns = true → anyTaskL ns = true
  | .nil => by simp [anyUncheckedL]
  | .cons n ns => by
    simp only [anyUncheckedL, anyTaskL, Bool.or_eq_true]
    rintro (h | h)
    · exact Or.inl (anyUnchecked_le_anyTaskNode n h)
    · exact Or.inr (anyUncheckedL_le_anyTaskL ns h)
end

/- ------------------------------------------------------------------ -/
/- Concrete documents used by the archive claims                      -/
/- ------------------------------------------------------------------ -/

/-- One checked task item carrying a paragraph, as parsed from
the line `- [x] item 1`. -/
def exItem : Node :=
  .listItem (some true) (.cons (.paragraph (.cons (.text "item 1") .nil)) .nil)

/-- The top-level unordered list holding `exItem`. -/
def exList : Node := .list false none (.cons exItem .nil)

/-- Document whose body is the single list `- [x] item 1`. -/
def exDoc : MdastDocument := ⟨none, ⟨.cons exList .nil⟩⟩

/-- The output of one archival pass over `exDoc`: the source list is
untouched, and a copy of the qualifying item sits after the new
Archived heading. -/
def exDocPass1 : MdastDocument :=
  ⟨none, ⟨.cons exList (.cons archivedHeadingNode
    (.cons (.list false none (.cons exItem .nil)) .nil))⟩⟩

/-- The output of a second archival pass over `exDocPass1`: yet another
copy of the item is inserted directly after the heading. -/
def exDocPass2 : MdastDocument :=
  ⟨none, ⟨.cons exList (.cons archivedHeadingNode
    (.cons (.list false none (.cons exItem .nil))
      (.cons (.list false none (.cons exItem .nil)) .nil)))⟩⟩

/-- One unchecked task item, as parsed from `- [ ] a`. -/
def exUnchecked : Node :=
  .listItem (some false) (.cons (.paragraph (.cons (.text "a") .nil)) .nil)

/-- Document whose body is the single list `- [ ] a`; nothing in it
qualifies for archival. -/
def exDocNoQual : MdastDocument :=
  ⟨none, ⟨.cons (.list false none (.cons exUnchecked .nil)) .nil⟩⟩

/- ------------------------------------------------------------------ -/
/- Claim C1                                                           -/
/- ------------------------------------------------------------------ -/

/-- Claim C1 (code_bug evidence): archival completeness fails on the
code. For the document `- [x] item 1`, whose only item is definitively
archivable (`should_archive` is true), one archival pass leaves the item
in its original position — the first root child is still the source list
containing it — and merely inserts a copy after the synthesized Archived
heading. The spec requires the qualifying item to be removed from its
source list (and an emptied list to be dropped); the loop in
`archive_markdown` never deletes anything from `new_mdast`. -/
theorem c1_archive_leaves_item_in_place :
    shouldArchive exItem = true ∧ archiveMarkdown exDoc = some exDocPass1 :=
  ⟨rfl, rfl⟩

/- ------------------------------------------------------------------ -/
/- Claim C2                                                           -/
/- ------------------------------------------------------------------ -/

/-- Claim C2 (code_bug evidence): archival is not idempotent on the
code. Running the transform on the output of a previous pass over
`- [x] item 1` yields `some` again — never `None` — and inserts a second
copy of the already-archived item after the Archived heading.
`archive_markdown` ends in an unconditional
`Some(markdown.replace_with(...))`, so a second pass can never report
"no further qualifying items". -/
theorem c2_second_pass_returns_some :
    archiveMarkdown exDoc = some exDocPass1 ∧
    archiveMarkdown exDocPass1 = some exDocPass2 ∧
    ((archiveMarkdown exDoc).bind archiveMarkdown).isSome = true :=
  ⟨rfl, rfl, rfl⟩

/- ------------------------------------------------------------------ -/
/- Claim C4                                                           -/
/- ------------------------------------------------------------------ -/

/-- Claim C4 (code_bug evidence): the transform never returns `None`.
`archive_markdown` returns `Some(...)` for every input document, even
when no top-level list item qualifies: for the document `- [ ] a`
(where `anyQualifying` is false, so the rewrite loop inserts nothing) it
still returns a rebuilt tree, with an Archived heading appended. The
claimed contract — `None` exactly when nothing qualifies — does not hold
on any input. -/
theorem c4_archive_never_none :
    (∀ d : MdastDocument, (archiveMarkdown d).isSome = true) ∧
    anyQualifying exDocNoQual.body.children = false ∧
    archiveMarkdown exDocNoQual =
      some ⟨none, ⟨.cons (.list false none (.cons exUnchecked .nil))
        (.cons archivedHeadingNode .nil)⟩⟩ :=
  ⟨fun _ => rfl, rfl, rfl⟩

/- ------------------------------------------------------------------ -/
/- Claim C5                                                           -/
/- ------------------------------------------------------------------ -/

/-- A plain prose item (no checkbox) whose only content is a paragraph:
no task item appears anywhere below it. -/
def exPlainItem : Node :=
  .listItem none (.cons (.paragraph (.cons (.text "plain prose") .nil)) .nil)

/-- Claim C5 counterexample: the classifier in the code is boolean, not
tri-state. A top-level `NotATask` item with no task descendants is
classified archivable (`should_archive` returns true, there is no
Ambiguous state), and an archival pass does place it under the Archived
heading — contradicting the claim that such an item is never relocated
there. -/
theorem c5_counterexample :
    shouldArchive exPlainItem = true ∧
    archiveMarkdown ⟨none, ⟨.cons (.list false none (.cons exPlainItem .nil)) .nil⟩⟩ =
      some ⟨none, ⟨.cons (.list false none (.cons exPlainItem .nil))
        (.cons archivedHeadingNode
          (.cons (.list false none (.cons exPlainItem .nil)) .nil))⟩⟩ :=
  ⟨rfl, rfl⟩

/-- Claim C5 (amended): a top-level list item with `checked = NotATask`
whose descendants contain no task items satisfies the boolean
`should_archive` (the code has no Ambiguous classification), and an
archival pass places such an item under the Archived heading (as a copy;
see C1). Stated for a document whose body is a single top-level list
holding the item. -/
theorem c5_notatask_item_is_archived
    (fm : Option String) (ord : Bool) (st : Option Nat) (cs : NodeList)
    (h : anyTaskNode (.listItem none cs) = false) :
    shouldArchive (.listItem none cs) = true ∧
    archiveMarkdown ⟨fm, ⟨.cons (.list ord st (.cons (.listItem none cs) .nil)) .nil⟩⟩ =
      some ⟨fm, ⟨.cons (.list ord st (.cons (.listItem none cs) .nil))
        (.cons archivedHeadingNode
          (.cons (.list ord st (.cons (.listItem none cs) .nil)) .nil))⟩⟩ := by
  have hu : anyUnchecked (.listItem none cs) = false := by
    cases hc : anyUnchecked (.listItem none cs) with
    | false => rfl
    | true => rw [anyUnchecked_le_anyTaskNode _ hc] at h; exact Bool.noConfusion h
  have hsa : shouldArchive (.listItem none cs) = true := by
    rw [shouldArchive_eq_not_anyUnchecked, hu]; rfl
  refine ⟨hsa, ?_⟩
  simp only [archiveMarkdown, NodeList.findIdxP, isArchivedHeading, NodeList.lastListIdx,
    NodeList.length, NodeList.insertAt, NodeList.take, processLists, filterArchivable, hsa,
    if_true, Option.map]

/-- Witness for C5 at the concrete plain-prose item. -/
theorem c5_witness :
    anyTaskNode (.listItem none (.cons (.paragraph (.cons (.text "plain prose") .nil)) .nil))
        = false ∧
    (shouldArchive (.listItem none (.cons (.paragraph (.cons (.text "plain prose") .nil)) .nil))
        = true ∧
     archiveMarkdown ⟨none, ⟨.cons (.list false none
        (.cons (.listItem none (.cons (.paragraph (.cons (.text "plain prose") .nil)) .nil))
          .nil)) .nil⟩⟩ =
      some ⟨none, ⟨.cons (.list false none
        (.cons (.listItem none (.cons (.paragraph (.cons (.text "plain prose") .nil)) .nil))
          .nil))
        (.cons archivedHeadingNode
          (.cons (.list false none
            (.cons (.listItem none (.cons (.paragraph (.cons (.text "plain prose") .nil)) .nil))
              .nil)) .nil))⟩⟩) :=
  ⟨rfl, c5_notatask_item_is_archived none false none _ rfl⟩

/- ------------------------------------------------------------------ -/
/- Claim C6                                                           -/
/- ------------------------------------------------------------------ -/

/-- A checked item whose only child is a block quote wrapping a list
with one unchecked task item: it has a deeper descendant `ListItem`
with `checked = Unchecked`, but that descendant is not reachable through
`List`/`ListItem` nesting alone. -/
def exCheckedWithQuotedTask : Node :=
  .listItem (some true)
    (.cons (.blockQuote
      (.cons (.list false none (.cons (.listItem (some false) .nil) .nil)) .nil)) .nil)

/-- Claim C6 counterexample: a checked item with an unchecked descendant
`ListItem` hidden inside a block quote is still classified archivable
(`should_archive` only recurses through `List` and `ListItem` children,
and treats every other node as satisfied), and an archival pass places
it under the Archived heading — so "any child or deeper descendant
ListItem with checked = Unchecked makes the item KeepIt / never
archived" is false as stated. -/
theorem c6_counterexample :
    anyTaskNode exCheckedWithQuotedTask = true ∧
    shouldArchive exCheckedWithQuotedTask = true ∧
    archiveMarkdown ⟨none, ⟨.cons (.list false none (.cons exCheckedWithQuotedTask .nil)) .nil⟩⟩ =
      some ⟨none, ⟨.cons (.list false none (.cons exCheckedWithQuotedTask .nil))
        (.cons archivedHeadingNode
          (.cons (.list false none (.cons exCheckedWithQuotedTask .nil)) .nil))⟩⟩ :=
  ⟨rfl, rfl, rfl⟩

/- ------------------------------------------------------------------ -/
/- Serializer totality (claim C9 support)                             -/
/- ------------------------------------------------------------------ -/

mutual
/-- Well-placedness of the node variants the serializer supports:
`TableRow` and `TableCell` may appear only where the table branch of
`mdast_string` consumes them; every other variant may appear anywhere
its children are themselves well-placed. -/
def wfNode : Node → Bool
  | .root cs => wfList cs
  | .heading _ cs => wfList cs
  | .paragraph cs => wfList cs
  | .list _ _ cs => wfList cs
  | .listItem _ cs => wfList cs
  | .emphasis cs => wfList cs
  | .strong cs => wfList cs
  | .delete cs => wfList cs
  | .link _ cs => wfList cs
  | .blockQuote cs => wfList cs
  | .footnoteDefinition _ cs => wfList cs
  | .table _ rows => wfRows rows
  | .tableRow _ => false
  | .tableCell _ => false
  | _ => true

/-- Well-placedness of a children vector. -/
def wfList : NodeList → Bool
  | .nil => true
  | .cons n ns => wfNode n && wfList ns

/-- Well-placedness of a table's children: each must be a row. -/
def wfRows : NodeList → Bool
  | .nil => true
  | .cons r rs => wfRow r && wfRows rs

/-- A table child must be a `TableRow` of well-placed cells. -/
def wfRow : Node → Bool
  | .tableRow cells => wfCells cells
  | _ => false

/-- Well-placedness of a row's children: each must be a cell. -/
def wfCells : NodeList → Bool
  | .nil => true
  | .cons c cs => wfCell c && wfCells cs

/-- A row child must be a `TableCell` of well-placed inline content. -/
def wfCell : Node → Bool
  | .tableCell inner => wfList inner
  | _ => false
end

/-- A row produced by the slot pass always has exactly `cols` slots. -/
theorem cellsSlots_length :
    ∀ (cs : NodeList) (cols : Nat) (ctx : Context) (row : List (Option (String × Nat))),
      cellsSlots cs cols ctx = some row → row.length = cols
  | .nil, 0, _, row => by intro h; simp [cellsSlots] at h; simp [← h]
  | .cons _ _, 0, _, row => by intro h; simp [cellsSlots] at h; simp [← h]
  | .nil, cols + 1, _, row => by
    intro h; simp [cellsSlots] at h; simp [← h]
  | .cons c cs, cols + 1, ctx, row => by
    intro h
    cases c
    case tableCell inner =>
      simp only [cellsSlots] at h
      cases hr : renderList inner ctx with
      | none => rw [hr] at h; simp at h
      | some s =>
        cases hc : cellsSlots cs cols ctx with
        | none => rw [hr, hc] at h; simp at h
        | some rest =>
          rw [hr, hc] at h
          simp only [Option.some.injEq] at h
          rw [← h]
          simp [cellsSlots_length cs cols ctx rest hc]
    all_goals
      simp only [cellsSlots] at h
      obtain ⟨rest, hc, hrow⟩ := Option.map_eq_some'.mp h
      rw [← hrow]
      simp [cellsSlots_length cs cols ctx rest hc]

/-- Every row of a table skeleton has exactly `cols` slots. -/
theorem rowsSkeleton_rowlen :
    ∀ (rs : NodeList) (cols : Nat) (ctx : Context)
      (skel : List (List (Option (String × Nat)))),
      rowsSkeleton rs cols ctx = some skel → ∀ row ∈ skel, row.length = cols
  | .nil, _, _, skel => by
    intro h
    simp only [rowsSkeleton, Option.some.injEq] at h
    subst h
    intro row hrow
    simp at hrow
  | .cons r rs, cols, ctx, skel => by
    intro h
    cases r
    case tableRow cells =>
      simp only [rowsSkeleton] at h
      cases hr : cellsSlots cells cols ctx with
      | none => rw [hr] at h; simp at h
      | some row =>
        cases hc : rowsSkeleton rs cols ctx with
        | none => rw [hr, hc] at h; simp at h
        | some rest =>
          rw [hr, hc] at h
          simp only [Option.some.injEq] at h
          rw [← h]
          intro x hx
          rcases List.mem_cons.mp hx with hx | hx
          · rw [hx]; exact cellsSlots_length cells cols ctx row hr
          · exact rowsSkeleton_rowlen rs cols ctx rest hc x hx
    all_goals
      simp only [rowsSkeleton] at h
      obtain ⟨rest, hc, hskel⟩ := Option.map_eq_some'.mp h
      rw [← hskel]
      intro x hx
      rcases List.mem_cons.mp hx with hx | hx
      · rw [hx]; simp
      · exact rowsSkeleton_rowlen rs cols ctx rest hc x hx

/-- Indexing the initial width vector below the alignment count yields
the alignment marker's minimum width. -/
theorem minWidths_getD :
    ∀ (align : List AlignKind) (i : Nat), i < align.length →
      (minWidths align).getD i 0 = alignMin (align.getD i .none) := by
  intro align
  induction align with
  | nil => intro i h; simp at h
  | cons a align ih =>
    intro i h
    cases i with
    | zero => simp [minWidths]
    | succ i =>
      rw [List.length_cons, Nat.succ_lt_succ_iff] at h
      simpa [minWidths] using ih i h

/-- Folding one row into the width vector never shrinks any entry. -/
theorem updateRow_ge :
    ∀ (ws : List Nat) (row : List (Option (String × Nat))) (i : Nat),
      row.length = ws.length → ws.getD i 0 ≤ (updateRow ws row).getD i 0 := by
  intro ws
  induction ws with
  | nil => intro row i h; simp [updateRow]
  | cons w ws ih =>
    intro row i h
    cases row with
    | nil => simp at h
    | cons s row =>
      cases i with
      | zero =>
        cases s with
        | none => simp [updateRow]
        | some p => simp [updateRow]
      | succ i =>
        simpa [updateRow] using ih row i (by simpa using h)

/-- Folding one row into the width vector preserves its length. -/
theorem updateRow_length :
    ∀ (ws : List Nat) (row : List (Option (String × Nat))),
      row.length = ws.length → (updateRow ws row).length = ws.length := by
  intro ws row h
  simp [updateRow, h]

/-- The width pass only ever raises the initial per-column widths. -/
theorem foldl_updateRow_ge :
    ∀ (skel : List (List (Option (String × Nat)))) (ws : List Nat),
      (∀ row ∈ skel, row.length = ws.length) →
      (skel.foldl updateRow ws).length = ws.length ∧
      (∀ i, ws.getD i 0 ≤ (skel.foldl updateRow ws).getD i 0) := by
  intro skel
  induction skel with
  | nil => intro ws _; exact ⟨rfl, fun i => le_refl _⟩
  | cons row skel ih =>
    intro ws h
    have hrow : row.length = ws.length := h row (by simp)
    have hlen : (updateRow ws row).length = ws.length := updateRow_length ws row hrow
    have hrest : ∀ r ∈ skel, r.length = (updateRow ws row).length := by
      intro r hr; rw [hlen]; exact h r (by simp [hr])
    obtain ⟨l1, l2⟩ := ih (updateRow ws row) hrest
    refine ⟨by simpa [hlen] using l1, fun i => ?_⟩
    exact le_trans (updateRow_ge ws row i hrow) (l2 i)

/-- Every final column width is at least the alignment marker's minimum
width: the delimiter-row subtractions `w - 1` and `w - 2` in `delimCell`
never underflow. -/
theorem tableWidths_ge_min (align : List AlignKind) (rows : NodeList) (ctx : Context)
    (skel : List (List (Option (String × Nat))))
    (hskel : rowsSkeleton rows align.length ctx = some skel) :
    ∀ i, i < align.length →
      alignMin (align.getD i .none) ≤ (tableWidths align skel).getD i 0 := by
  intro i hi
  have hrows := rowsSkeleton_rowlen rows align.length ctx skel hskel
  have hlen : ∀ row ∈ skel, row.length = (minWidths align).length := by
    intro row hr
    rw [minWidths, List.length_map]
    exact hrows row hr
  have hfold := (foldl_updateRow_ge skel (minWidths align) hlen).2 i
  calc alignMin (align.getD i .none)
      = (minWidths align).getD i 0 := (minWidths_getD align i hi).symm
    _ ≤ (tableWidths align skel).getD i 0 := hfold

mutual
/-- Well-placed trees always serialize: `mdast_string` reaches the
`panic` arm only at a misplaced `TableRow`/`TableCell`. -/
theorem mdastString_total :
    ∀ (n : Node) (ctx : Context), wfNode n = true → (mdastString n ctx).isSome = true
  | .root cs, ctx, h => by
    simpa [mdastString, Option.isSome_map] using renderList_total cs ctx h
  | .heading d cs, ctx, h => by
    simpa [mdastString, Option.isSome_map] using renderList_total cs ctx h
  | .text v, _, _ => rfl
  | .paragraph cs, ctx, h => by
    simpa [mdastString, Option.isSome_map] using renderList_total cs ctx h
  | .list o st cs, ctx, h => by
    cases st with
    | none => simpa [mdastString] using renderList_total cs _ h
    | some start => simpa [mdastString] using renderOrdered_total cs start _ h
  | .listItem c cs, ctx, h => by
    simpa [mdastString, Option.isSome_map] using renderList_total cs ⟨none, ctx.listIndent⟩ h
  | .code _ _, _, _ => rfl
  | .inlineCode _, _, _ => rfl
  | .emphasis cs, ctx, h => by
    simpa [mdastString, Option.isSome_map] using renderList_total cs ctx h
  | .strong cs, ctx, h => by
    simpa [mdastString, Option.isSome_map] using renderList_total cs ctx h
  | .delete cs, ctx, h => by
    simpa [mdastString, Option.isSome_map] using renderList_total cs ctx h
  | .hardBreak, _, _ => rfl
  | .link u cs, ctx, h => by
    simpa [mdastString, Option.isSome_map] using renderList_total cs ctx h
  | .image _ _, _, _ => rfl
  | .blockQuote cs, ctx, h => by
    simpa [mdastString, Option.isSome_map] using renderList_total cs ctx h
  | .thematicBreak, _, _ => rfl
  | .html _, _, _ => rfl
  | .imageReference _ _, _, _ => rfl
  | .definition _ _, _, _ => rfl
  | .footnoteReference _, _, _ => rfl
  | .footnoteDefinition i cs, ctx, h => by
    simpa [mdastString, Option.isSome_map] using renderFootnote_total cs true ctx h
  | .table align rows, ctx, h => by
    simpa [mdastString, Option.isSome_map] using rowsSkeleton_total rows align.length ctx h
  | .tableRow cs, _, h => by simp [wfNode] at h
  | .tableCell cs, _, h => by simp [wfNode] at h
  | .math _, _, _ => rfl
  | .inlineMath _, _, _ => rfl
  | .yaml _, _, _ => rfl

/-- Totality of the children concatenation. -/
theorem renderList_total :
    ∀ (ns : NodeList) (ctx : Context), wfList ns = true → (renderList ns ctx).isSome = true
  | .nil, _, _ => rfl
  | .cons n ns, ctx, h => by
    rw [show wfList (.cons n ns) = (wfNode n && wfList ns) from rfl, Bool.and_eq_true] at h
    obtain ⟨s, hs⟩ := Option.isSome_iff_exists.mp (mdastString_total n ctx h.1)
    obtain ⟨t, ht⟩ := Option.isSome_iff_exists.mp (renderList_total ns ctx h.2)
    simp [renderList, hs, ht]

/-- Totality of the ordered-list numbering pass. -/
theorem renderOrdered_total :
    ∀ (ns : NodeList) (i : Nat) (indent : Option Nat),
      wfList ns = true → (renderOrdered ns i indent).isSome = true
  | .nil, _, _, _ => rfl
  | .cons n ns, i, indent, h => by
    rw [show wfList (.cons n ns) = (wfNode n && wfList ns) from rfl, Bool.and_eq_true] at h
    by_cases hn : isListItem n = true
    · obtain ⟨s, hs⟩ := Option.isSome_iff_exists.mp (mdastString_total n ⟨some i, indent⟩ h.1)
      obtain ⟨t, ht⟩ := Option.isSome_iff_exists.mp (renderOrdered_total ns (i + 1) indent h.2)
      simp [renderOrdered, hn, hs, ht]
    · obtain ⟨s, hs⟩ := Option.isSome_iff_exists.mp (mdastString_total n ⟨none, indent⟩ h.1)
      obtain ⟨t, ht⟩ := Option.isSome_iff_exists.mp (renderOrdered_total ns i indent h.2)
      simp [renderOrdered, hn, hs, ht]

/-- Totality of the footnote-definition body pass. -/
theorem renderFootnote_total :
    ∀ (ns : NodeList) (first : Bool) (ctx : Context),
      wfList ns = true → (renderFootnote ns first ctx).isSome = true
  | .nil, _, _, _ => rfl
  | .cons n .nil, first, ctx, h => by
    rw [show wfList (.cons n .nil) = (wfNode n && true) from rfl, Bool.and_eq_true] at h
    simpa [renderFootnote, Option.isSome_map] using mdastString_total n ctx h.1
  | .cons n (.cons m ms), first, ctx, h => by
    rw [show wfList (.cons n (.cons m ms)) = (wfNode n && wfList (.cons m ms)) from rfl,
      Bool.and_eq_true] at h
    obtain ⟨s, hs⟩ := Option.isSome_iff_exists.mp (mdastString_total n ctx h.1)
    obtain ⟨t, ht⟩ :=
      Option.isSome_iff_exists.mp (renderFootnote_total (.cons m ms) false ctx h.2)
    simp [renderFootnote, hs, ht]

/-- Totality of the table first pass over well-placed rows. -/
theorem rowsSkeleton_total :
    ∀ (rs : NodeList) (cols : Nat) (ctx : Context),
      wfRows rs = true → (rowsSkeleton rs cols ctx).isSome = true
  | .nil, _, _, _ => rfl
  | .cons r rs, cols, ctx, h => by
    rw [show wfRows (.cons r rs) = (wfRow r && wfRows rs) from rfl, Bool.and_eq_true] at h
    match r, h.1 with
    | .tableRow cells, h1 =>
      obtain ⟨row, hrow⟩ := Option.isSome_iff_exists.mp (cellsSlots_total cells cols ctx h1)
      obtain ⟨rest, hrest⟩ := Option.isSome_iff_exists.mp (rowsSkeleton_total rs cols ctx h.2)
      simp [rowsSkeleton, hrow, hrest]

/-- Totality of the slot pass over well-placed cells. -/
theorem cellsSlots_total :
    ∀ (cs : NodeList) (cols : Nat) (ctx : Context),
      wfCells cs = true → (cellsSlots cs cols ctx).isSome = true
  | .nil, 0, _, _ => rfl
  | .cons _ _, 0, _, _ => rfl
  | .nil, cols + 1, _, _ => rfl
  | .cons c cs, cols + 1, ctx, h => by
    rw [show wfCells (.cons c cs) = (wfCell c && wfCells cs) from rfl, Bool.and_eq_true] at h
    match c, h.1 with
    | .tableCell inner, h1 =>
      obtain ⟨s, hs⟩ := Option.isSome_iff_exists.mp (renderList_total inner ctx h1)
      obtain ⟨rest, hrest⟩ := Option.isSome_iff_exists.mp (cellsSlots_total cs cols ctx h.2)
      simp [cellsSlots, hs, hrest]
end

/- ------------------------------------------------------------------ -/
/- Claim C7                                                           -/
/- ------------------------------------------------------------------ -/

/-- Claim C7 (code_bug evidence): the fence computation misses a run of
backticks that reaches the end of the value. `count_longest_sequential_chars`
folds its running `count` into `longest` only upon seeing a different
character, and returns `longest` without a final fold, so for the value
`a\x60\x60` — whose longest backtick run is 2 and sits at the very end —
it returns 0. The serializer therefore emits a one-backtick fence around
content containing a two-backtick run, colliding with the content,
where the claim requires a three-backtick fence. -/
theorem c7_fence_misses_trailing_run :
    count_longest_sequential_chars "a``" '`' = 0 ∧
    longestRunSpec '`' ("a``".data) 0 = 2 ∧
    mdastString (.inlineCode "a``") defaultContext = some "`a```" :=
  ⟨rfl, rfl, rfl⟩

/- ------------------------------------------------------------------ -/
/- Claim C10                                                          -/
/- ------------------------------------------------------------------ -/

/-- Truncates every `TableRow` child of a table to the first `cols`
cells, leaving other children alone. -/
def truncRows (cols : Nat) : NodeList → NodeList
  | .nil => .nil
  | .cons r rs =>
    .cons
      (match r with
       | .tableRow cells => .tableRow (NodeList.take cols cells)
       | other => other)
      (truncRows cols rs)

/-- Truncation preserves the number of rows. -/
theorem truncRows_length (cols : Nat) :
    ∀ rs : NodeList, (truncRows cols rs).length = rs.length
  | .nil => rfl
  | .cons r rs => by simp [truncRows, NodeList.length, truncRows_length cols rs]

/-- Cells beyond the column budget never influence the row's skeleton
slots: the slot pass already stops at `cols` children. -/
theorem cellsSlots_take (ctx : Context) :
    ∀ (cols : Nat) (cells : NodeList),
      cellsSlots (NodeList.take cols cells) cols ctx = cellsSlots cells cols ctx
  | 0, cells => by cases cells <;> rfl
  | cols + 1, .nil => rfl
  | cols + 1, .cons c cs => by
    cases c <;> simp [NodeList.take, cellsSlots, cellsSlots_take ctx cols cs]

/-- The table skeleton is unchanged by truncating each row to the
alignment width. -/
theorem rowsSkeleton_truncRows (cols : Nat) (ctx : Context) :
    ∀ rs : NodeList,
      rowsSkeleton (truncRows cols rs) cols ctx = rowsSkeleton rs cols ctx
  | .nil => rfl
  | .cons r rs => by
    cases r <;>
      simp [truncRows, rowsSkeleton, rowsSkeleton_truncRows cols ctx rs,
        cellsSlots_take ctx cols]

/-- Builds a `NodeList` from a `List Node`. -/
def ofList (l : List Node) : NodeList := l.foldr .cons .nil

/-- A one-cell-per-entry table row of plain text cells. -/
def textRow (l : List String) : Node :=
  .tableRow (ofList (l.map (fun s => .tableCell (.cons (.text s) .nil))))

/-- The jagged three-column table of the repository test
`mdast_jagged_table_three_columns`: a header row and data rows of one,
two, three and four cells. -/
def jaggedTable : Node :=
  .table [.none, .none, .none]
    (ofList [textRow ["H", "Hah", "H"], textRow ["C"], textRow ["C", "C"],
      textRow ["C", "C", "C"], textRow ["C", "C", "C", "C"]])

/-- Claim C10: a rendered table row shows at most as many cells as the
table has alignment entries. Truncating every row to the first
`align.length` cells yields the identical rendering — the dropped cells
contribute neither content nor column widths — and, concretely, the
jagged three-column table of the repository's own test renders with a
one-cell row closed early at its pipe and a four-cell row shown with
three cells. -/
theorem c10_jagged_rows_render_truncated :
    (∀ (align : List AlignKind) (rows : NodeList) (ctx : Context),
      mdastString (.table align rows) ctx =
        mdastString (.table align (truncRows align.length rows)) ctx) ∧
    mdastString jaggedTable defaultContext =
      some "| H | Hah | H |\n| - | --- | - |\n| C |\n| C | C   |\n| C | C   | C |\n| C | C   | C |\n" := by
  refine ⟨fun align rows ctx => ?_, rfl⟩
  simp only [mdastString, rowsSkeleton_truncRows, truncRows_length]

/- ------------------------------------------------------------------ -/
/- Claim C9                                                           -/
/- ------------------------------------------------------------------ -/

/-- A small well-placed table used to witness C9. -/
def c9Table : Node := .table [.left, .center] (ofList [textRow ["a", "b"], textRow ["c"]])

/-- The skeleton the first table pass computes for `c9Table`. -/
def c9Skel : List (List (Option (String × Nat))) :=
  [[some ("a", 1), some ("b", 1)], [some ("c", 1), none]]

/-- Claim C9: the serializer is total on every tree built from the
supported node variants with `TableRow`/`TableCell` placed as table
content — `mdast_string` returns a string, never reaching the
unsupported-node fatal arm — and the delimiter-row width subtractions
cannot underflow, because every final column width is at least the
alignment marker's minimum width (2 for `:-` and `-:`, 3 for `:-:`,
1 for `-`). -/
theorem c9_serializer_total :
    (∀ (n : Node) (ctx : Context), wfNode n = true → (mdastString n ctx).isSome = true) ∧
    (∀ (align : List AlignKind) (rows : NodeList) (ctx : Context)
       (skel : List (List (Option (String × Nat)))),
      rowsSkeleton rows align.length ctx = some skel →
      ∀ i, i < align.length →
        alignMin (align.getD i .none) ≤ (tableWidths align skel).getD i 0) :=
  ⟨mdastString_total,
   fun align rows ctx skel h i hi => tableWidths_ge_min align rows ctx skel h i hi⟩

/-- Witness for C9 at a concrete two-column table. -/
theorem c9_serializer_total_witness :
    wfNode c9Table = true ∧
    (mdastString c9Table defaultContext).isSome = true ∧
    rowsSkeleton (ofList [textRow ["a", "b"], textRow ["c"]])
        ([AlignKind.left, AlignKind.center].length) defaultContext = some c9Skel ∧
    (0 : Nat) < [AlignKind.left, AlignKind.center].length ∧
    alignMin ([AlignKind.left, AlignKind.center].getD 0 .none) ≤
      (tableWidths [AlignKind.left, AlignKind.center] c9Skel).getD 0 0 :=
  ⟨rfl, c9_serializer_total.1 c9Table defaultContext rfl, rfl, by decide,
   c9_serializer_total.2 [AlignKind.left, AlignKind.center]
     (ofList [textRow ["a", "b"], textRow ["c"]]) defaultContext c9Skel rfl 0 (by decide)⟩

/- ------------------------------------------------------------------ -/
/- Claim C3                                                           -/
/- ------------------------------------------------------------------ -/

/-- A block of the canonical document fragment used for the round-trip
claim: a thematic break or a single-line plain-text paragraph. -/
inductive CBlock where
  | hr
  | para (line : List Char)

/-- The canonical source line of a fragment block (`---` for a thematic
break, per the serializer's canonical form). -/
def cblockLine : CBlock → List Char
  | .hr => "---".data
  | .para l => l

/-- The mdast node a fragment block parses to. -/
def cblockNode : CBlock → Node
  | .hr => .thematicBreak
  | .para l => .paragraph (.cons (.text ⟨l⟩) .nil)

/-- Characters allowed inside a plain paragraph line of the fragment:
alphanumerics and interior spaces. -/
def plainChar (c : Char) : Bool := c.isAlphanum || c == ' '

/-- A plain paragraph line of the canonical fragment: every character is
an alphanumeric or a space, and the first and last characters are
alphanumeric (in particular the line is non-empty). The edge condition
keeps the fragment inside the CommonMark constructs the spec names and
that parse to a verbatim-text paragraph: a whitespace-only line would be
a blank line, a space-indented line could be an indented code block, and
leading or trailing spaces of a paragraph line are stripped by the
parser — all of which the real pipeline normalizes rather than
round-trips. Interior spaces are preserved verbatim by CommonMark
paragraphs and so stay admitted. -/
def plainLine (l : List Char) : Bool :=
  l.all plainChar && (l.head?.any Char.isAlphanum && l.getLast?.any Char.isAlphanum)

/-- Well-formedness of a fragment block: a paragraph line is plain text
with alphanumeric first and last characters. -/
def wfCBlock : CBlock → Bool
  | .hr => true
  | .para l => plainLine l

/-- The canonical text of a block sequence: one line per block, blocks
separated by one blank line, with a final newline — exactly the shape
`MdastDocument::render` produces for these nodes. -/
def canonicalChars : List CBlock → List Char
  | [] => []
  | [b] => cblockLine b ++ ['\n']
  | b :: rest => cblockLine b ++ '\n' :: '\n' :: canonicalChars rest

/-- String form of `canonicalChars`. -/
def canonicalText (bs : List CBlock) : String := ⟨canonicalChars bs⟩

/-- Modelled from the spec: the parser (`markdown::to_mdast`, wrapped by
`MdastDocument::parse`) is an external crate, not code of this
repository. Per spec section 4.1, the source styles `***` and `___`
parse to a `ThematicBreak` alongside `---` (the serializer emits the
canonical `---` form regardless); a plain text line — alphanumeric at
both ends, so CommonMark neither strips, indents, blanks nor reinterprets
it — parses to a paragraph holding its text verbatim. Every other line
is outside the modelled fragment and parses to `none`. -/
def blockOfLine (l : List Char) : Option Node :=
  if l == "---".data || l == "***".data || l == "___".data then some .thematicBreak
  else if plainLine l then some (.paragraph (.cons (.text ⟨l⟩) .nil))
  else none

/-- Modelled from the spec: blank-line-separated block structure of the
fragment. Lines outside the fragment's grammar parse to `none`. -/
def parseBlockLines : List (List Char) → Option (List Node)
  | [] => some []
  | [l] => (blockOfLine l).map ([·])
  | l :: [] :: rest =>
    match blockOfLine l, parseBlockLines rest with
    | some b, some ns => some (b :: ns)
    | _, _ => none
  | _ => none

/-- Modelled from the spec: parse of a fragment document — split into
lines, then into blank-line-separated blocks. -/
def parseFrag (s : String) : Option MRoot :=
  (parseBlockLines (rustLines s.data)).map (fun ns => ⟨ofList ns⟩)

/-- Splitting off one newline-terminated line. -/
theorem rustLines_append (l r : List Char) (h : '\n' ∉ l) :
    rustLines (l ++ '\n' :: r) = l :: rustLines r := by
  induction l with
  | nil => simp [rustLines]
  | cons c l ih =>
    have hc : c ≠ '\n' := fun e => h (by simp [e])
    have hl : '\n' ∉ l := fun e => h (by simp [e])
    simp only [List.cons_append, rustLines, if_neg hc, List.append_eq, ih hl]

/-- The modelled parser maps each canonical block line back to its
block's node. -/
theorem blockOfLine_cblock : ∀ b : CBlock, wfCBlock b = true →
    blockOfLine (cblockLine b) = some (cblockNode b)
  | .hr, _ => rfl
  | .para l, h => by
    have hp : plainLine l = true := by simpa [wfCBlock] using h
    have hall : l.all plainChar = true := by
      have hc := hp
      rw [plainLine, Bool.and_eq_true] at hc
      exact hc.1
    have hne : ∀ bad : List Char, bad.all plainChar = false → l ≠ bad := by
      intro bad hbad e
      rw [e, hbad] at hall
      exact Bool.noConfusion hall
    have e1 : (l == "---".data || l == "***".data || l == "___".data) = false := by
      have d1 : l ≠ "---".data := hne _ (by decide)
      have d2 : l ≠ "***".data := hne _ (by decide)
      have d3 : l ≠ "___".data := hne _ (by decide)
      simp [d1, d2, d3]
    simp [blockOfLine, cblockLine, e1, hp, cblockNode]

/-- Canonical block lines never contain a newline. -/
theorem nl_not_mem_cblockLine : ∀ b : CBlock, wfCBlock b = true → '\n' ∉ cblockLine b
  | .hr, _ => by decide
  | .para l, h => by
    intro hm
    simp only [cblockLine] at hm
    have hp : plainLine l = true := by simpa [wfCBlock] using h
    rw [plainLine, Bool.and_eq_true] at hp
    have := List.all_eq_true.mp hp.1 _ hm
    simp [plainChar] at this

/-- Parsing the canonical text of a well-formed block sequence recovers
exactly those blocks' nodes. -/
theorem parse_canonical : ∀ bs : List CBlock, (∀ b ∈ bs, wfCBlock b = true) → bs ≠ [] →
    parseBlockLines (rustLines (canonicalChars bs)) = some (bs.map cblockNode)
  | [], _, hne => absurd rfl hne
  | [b], h, _ => by
    have hb := h b (by simp)
    rw [show canonicalChars [b] = cblockLine b ++ '\n' :: [] from rfl,
      rustLines_append _ _ (nl_not_mem_cblockLine b hb)]
    simp [parseBlockLines, rustLines, blockOfLine_cblock b hb]
  | b :: b2 :: rest, h, _ => by
    have hb := h b (by simp)
    have hrest : ∀ x ∈ b2 :: rest, wfCBlock x = true := by
      intro x hx; exact h x (by simp [hx])
    have ih := parse_canonical (b2 :: rest) hrest (by simp)
    rw [show canonicalChars (b :: b2 :: rest) =
        cblockLine b ++ '\n' :: ('\n' :: canonicalChars (b2 :: rest)) from rfl,
      rustLines_append _ _ (nl_not_mem_cblockLine b hb)]
    rw [show rustLines ('\n' :: canonicalChars (b2 :: rest)) =
        [] :: rustLines (canonicalChars (b2 :: rest)) from by simp [rustLines]]
    simp [parseBlockLines, blockOfLine_cblock b hb, ih]

/-- Each fragment node serializes to its canonical line plus newline. -/
theorem cblock_render (b : CBlock) :
    mdastString (cblockNode b) defaultContext = some ⟨cblockLine b ++ ['\n']⟩ := by
  cases b with
  | hr => rfl
  | para l =>
    show (renderList (.cons (.text ⟨l⟩) .nil) defaultContext).map (· ++ "\n") = _
    rw [show renderList (.cons (.text ⟨l⟩) .nil) defaultContext = some ((⟨l⟩ : String) ++ "")
      from rfl]
    simp only [Option.map_some', Option.some.injEq, cblockLine]
    apply String.ext
    simp [String.data_append]

/-- A line followed by a newline ends with a newline. -/
theorem endsWithNewline_line (l : List Char) :
    endsWithNewline ⟨l ++ ['\n']⟩ = true := by
  simp [endsWithNewline]

/-- The per-child rendering pass over fragment nodes. -/
theorem renderChildren_blocks : ∀ bs : List CBlock,
    renderChildren (ofList (bs.map cblockNode)) =
      some (bs.map (fun b => (⟨cblockLine b ++ ['\n']⟩ : String)))
  | [] => rfl
  | b :: rest => by
    simp only [List.map_cons, ofList, List.foldr_cons, renderChildren]
    rw [cblock_render b]
    rw [show (List.foldr NodeList.cons NodeList.nil (rest.map cblockNode)) =
      ofList (rest.map cblockNode) from rfl]
    rw [renderChildren_blocks rest]

/-- Unfolding the blank-line join on a two-or-more element list. -/
theorem joinSep_cons_cons (sep x y : String) (ys : List String) :
    joinSep sep (x :: y :: ys) = x ++ sep ++ joinSep sep (y :: ys) := rfl

/-- Joining the rendered block strings with blank lines rebuilds the
canonical text. -/
theorem joinSep_blocks : ∀ bs : List CBlock, bs ≠ [] →
    joinSep "\n" (bs.map (fun b => (⟨cblockLine b ++ ['\n']⟩ : String))) = canonicalText bs
  | [], hne => absurd rfl hne
  | [b], _ => by
    simp [joinSep, canonicalText, canonicalChars]
  | b :: b2 :: rest, _ => by
    have ih := joinSep_blocks (b2 :: rest) (by simp)
    rw [List.map_cons, List.map_cons, joinSep_cons_cons,
      show ((⟨cblockLine b2 ++ ['\n']⟩ : String) ::
          List.map (fun b => (⟨cblockLine b ++ ['\n']⟩ : String)) rest) =
        List.map (fun b => (⟨cblockLine b ++ ['\n']⟩ : String)) (b2 :: rest) from rfl, ih]
    apply String.ext
    simp [canonicalText, String.data_append, canonicalChars]

/-- The document renderer reproduces the canonical text of a fragment. -/
theorem renderDoc_blocks (bs : List CBlock) (hne : bs ≠ []) :
    renderDoc (ofList (bs.map cblockNode)) = some (canonicalText bs) := by
  rw [renderDoc, renderChildren_blocks bs]
  simp only [Option.map_some', Option.some.injEq]
  have e : (bs.map (fun b => (⟨cblockLine b ++ ['\n']⟩ : String))).map
      (fun s => s ++ (if endsWithNewline s then "" else "\n")) =
      bs.map (fun b => (⟨cblockLine b ++ ['\n']⟩ : String)) := by
    rw [List.map_map]
    apply List.map_congr_left
    intro b _
    simp [Function.comp, endsWithNewline_line, String.append_empty]
  rw [e, joinSep_blocks bs hne]

/-- Fragment documents contain no list, hence no archivable item. -/
theorem anyQualifying_blocks : ∀ bs : List CBlock,
    anyQualifying (ofList (bs.map cblockNode)) = false
  | [] => rfl
  | b :: rest => by
    have ih := anyQualifying_blocks rest
    rw [show ofList ((b :: rest).map cblockNode) =
      .cons (cblockNode b) (ofList (rest.map cblockNode)) from rfl]
    cases b <;> simp [anyQualifying, cblockNode, ih]

/-- Claim C3 counterexample: exact losslessness fails as stated. The
document text consisting of the single thematic-break line written
`***` contains no item qualifying for archival, yet serializing its
parse yields the canonical `---` line: the serializer emits `---`
regardless of source style (spec section 4.1, and the repository's own
test `mdast_many_horizontal_rules`), so `render(parse(text))` differs
from `text`. -/
theorem c3_counterexample :
    parseFrag "***\n" = some ⟨.cons .thematicBreak .nil⟩ ∧
    renderDoc (.cons .thematicBreak .nil) = some "---\n" ∧
    "---\n" ≠ "***\n" ∧
    anyQualifying (.cons Node.thematicBreak .nil) = false :=
  ⟨rfl, rfl, by decide, rfl⟩

/-- Claim C3 (amended): `render ∘ parse` is not the identity on all
archival-free text — non-canonical syntax such as `***` is normalized —
but it is the identity on documents already in canonical form. For the
modelled fragment (blank-line-separated plain paragraphs and `---`
thematic breaks), parsing the canonical text and re-rendering
reproduces it exactly, and such documents contain no qualifying item. -/
theorem c3_roundtrip_canonical (bs : List CBlock)
    (h1 : bs ≠ []) (h2 : ∀ b ∈ bs, wfCBlock b = true) :
    anyQualifying (ofList (bs.map cblockNode)) = false ∧
    (parseFrag (canonicalText bs)).bind (fun r => renderDoc r.children) =
      some (canonicalText bs) := by
  refine ⟨anyQualifying_blocks bs, ?_⟩
  rw [parseFrag, show (canonicalText bs).data = canonicalChars bs from rfl,
    parse_canonical bs h2 h1]
  simp only [Option.map_some', Option.some_bind]
  exact renderDoc_blocks bs h1

/-- Witness for C3 on a three-block canonical document. -/
theorem c3_roundtrip_canonical_witness :
    (([CBlock.para "hello world".data, CBlock.hr, CBlock.para "bye".data] : List CBlock) ≠ [] ∧
      ∀ b ∈ [CBlock.para "hello world".data, CBlock.hr, CBlock.para "bye".data],
        wfCBlock b = true) ∧
    (anyQualifying (ofList ([CBlock.para "hello world".data, CBlock.hr,
        CBlock.para "bye".data].map cblockNode)) = false ∧
     (parseFrag (canonicalText [CBlock.para "hello world".data, CBlock.hr,
        CBlock.para "bye".data])).bind (fun r => renderDoc r.children) =
      some (canonicalText [CBlock.para "hello world".data, CBlock.hr,
        CBlock.para "bye".data])) :=
  ⟨⟨by simp, by decide⟩,
   c3_roundtrip_canonical [CBlock.para "hello world".data, CBlock.hr, CBlock.para "bye".data]
     (by simp) (by decide)⟩

/- ------------------------------------------------------------------ -/
/- Claim C8                                                           -/
/- ------------------------------------------------------------------ -/

/-- Pushing a character that is not a hyphen through the double-hyphen
substitution leaves it in place. -/
theorem trChars_cons_of_ne (c : Char) (xs : List Char) (h : c ≠ '-') :
    trChars (c :: xs) = c :: trChars xs := by
  cases xs with
  | nil => rfl
  | cons x xs => simp [trChars, h]

/-- The double-hyphen-to-em-dash substitution is idempotent: its output
never contains a remaining `--` pair, so applying it again changes
nothing. -/
theorem trChars_idem : ∀ cs : List Char, trChars (trChars cs) = trChars cs := by
  intro cs
  induction cs using trChars.induct with
  | case1 => rfl
  | case2 c => rfl
  | case3 c d rest h ih =>
    obtain ⟨hc, hd⟩ : c = '-' ∧ d = '-' := by simpa using h
    subst hc; subst hd
    have e1 : trChars ('-' :: '-' :: rest) = '—' :: trChars rest := by simp [trChars]
    rw [e1, trChars_cons_of_ne _ _ (by decide), ih]
  | case4 c d rest h ih =>
    have e1 : trChars (c :: d :: rest) = c :: trChars (d :: rest) := by
      simp only [trChars, if_neg h]
    by_cases hc : c = '-'
    · subst hc
      have hd : d ≠ '-' := by simpa using h
      have e2 : trChars ('-' :: d :: trChars rest) = '-' :: trChars (d :: trChars rest) := by
        simp [trChars, hd]
      rw [e1, trChars_cons_of_ne d rest hd, e2]
      rw [trChars_cons_of_ne d rest hd] at ih
      rw [ih]
    · rw [e1, trChars_cons_of_ne c _ hc, ih]

/-- Claim C8 (code_bug evidence): the text substitution itself is
idempotent — re-running it reproduces its own output, and a second
`format_document` pass leaves every node unchanged — but the transform
never reports "no change": `format_document` returns `Some` for every
input (the `changed` flag it allocates is never set or read), so the
caller `format_files` rewrites every file on every run, including the
second run over already-normalized output, where the claim requires no
file write. Shown concretely on a document whose text `a--b` normalizes
to `a—b`. -/
theorem c8_format_second_pass_still_some :
    (∀ s : String, textReplace (textReplace s) = textReplace s) ∧
    formatDocument ⟨none, ⟨.cons (.paragraph (.cons (.text "a--b") .nil)) .nil⟩⟩ =
      some ⟨none, ⟨.cons (.paragraph (.cons (.text "a—b") .nil)) .nil⟩⟩ ∧
    formatDocument ⟨none, ⟨.cons (.paragraph (.cons (.text "a—b") .nil)) .nil⟩⟩ =
      some ⟨none, ⟨.cons (.paragraph (.cons (.text "a—b") .nil)) .nil⟩⟩ ∧
    (∀ d : MdastDocument, (formatDocument d).isSome = true) := by
  refine ⟨fun s => ?_, rfl, rfl, fun _ => rfl⟩
  show (⟨trChars (textReplace s).data⟩ : String) = ⟨trChars s.data⟩
  rw [show (textReplace s).data = trChars s.data from rfl, trChars_idem]

/-- Claim C6 (amended): for a `ListItem` with `checked = Checked`, the
classifier returns false exactly when an unchecked `ListItem` is
reachable through nested `List`/`ListItem` nodes (the classifier does
not look inside other containers such as block quotes); in particular a
checked item whose descendants are only non-task content is classified
archivable. -/
theorem c6_checked_dominance (cs : NodeList) :
    shouldArchive (.listItem (some true) cs) = !anyUncheckedL cs := by
  rw [shouldArchive_eq_not_anyUnchecked]
  simp [anyUnchecked]

end Marksage
